import Mathlib

/-!
Verification of the dsmr4p1 library (a Go library reading and parsing data from
the P1 port of Dutch smart meters) against its natural-language specification.

The development shallowly embeds the library:

* bytes are `Nat` values (a Go `byte` is the value modulo 256; all wire data is
  ASCII, and `strBytes` converts a Lean string literal to its byte list);
* the CRC16 engine (`p1crc16`, the `crc16.IBMTable` entries) follows the source
  exactly: a 16-bit fold with no initial and no final complement;
* the frame reader `startPolling` is modelled as a total function from the
  whole input byte list (the `io.Reader` contents) to the list of telegrams
  sent on the channel, in channel order.  The `bufio` reads `ReadBytes(d)`
  are modelled by `splitAtDelim d`: data up to and including the delimiter,
  `none` at end of stream.  An EOF while reading the frame body or the CRC
  trailer consumes the rest of the stream, so the Go `continue` followed by
  the EOF `break` of the next iteration collapses to returning the empty
  list, and closing the channel is the function returning;
* `Telegram.Parse` and `Telegram.Identifier` are embedded with a three-way
  outcome: `ok`, `err` (a Go `error` return; the distinct error strings are
  collapsed) and `crash` (a Go runtime panic, from an out-of-range index or a
  slice expression with start index past its end index).  `Identifier` returns
  `Option`, with `none` for the panic;
* the Go `map[string][]string` is modelled as an association list with
  overwrite-on-duplicate (`upsert`), matching last-write-wins;
* `strconv.ParseFloat` is modelled over `ℚ` (`parseFloatModel`), restricted to
  plain decimal notation (optional sign, digits, optional fraction part); IEEE
  rounding is not modelled, so value arithmetic is exact;
* `time.ParseInLocation` with layout `"060102150405 MST"` is modelled by
  `parseLayout12` (twelve digits, Go's two-digit-year window, calendar range
  checks); the host locale plays no role in the model, matching the source's
  fixed `Europe/Amsterdam` + "CEST"/"CET" choice.
-/

/-- Byte list of an ASCII string literal. -/
def strBytes (s : String) : List Nat := s.data.map Char.toNat

/-! ## Checksum engine

`crc16.MakeTable(crc16.IBM)` builds each table entry from the byte index by
eight steps of: shift right one bit, xor with the reversed polynomial 0xA001
when the dropped bit was set.  `p1crc16` is the table fold from the source
(`crc = crc16.IBMTable[byte(crc)^v] ^ (crc >> 8)` starting from 0), with no
XOR-in and no XOR-out. -/

/-- One bit-step of the reflected CRC16 table construction with the Go
constant `crc16.IBM = 0xA001`. -/
def crcStep (c : Nat) : Nat := if c % 2 = 1 then (c / 2) ^^^ 0xA001 else c / 2

/-- Entry `n` of `crc16.IBMTable` (the same entries as
`crc16.MakeTableNoXOR(crc16.IBM)`): eight bit-steps applied to the index. -/
def IBMTable (n : Nat) : Nat := crcStep^[8] n

/-- The checksum from the source: running 16-bit accumulator starting at 0,
`crc = IBMTable[byte(crc) ^ v] ^ (crc >> 8)` for each input byte `v`, with no
initial and no final complement. -/
def p1crc16 (data : List Nat) : Nat :=
  data.foldl (fun crc v => IBMTable ((crc % 256) ^^^ (v % 256)) ^^^ (crc >>> 8)) 0

/-- Byte value of the uppercase hexadecimal digit for `n < 16`. -/
def hexDigit (n : Nat) : Nat := if n < 10 then 48 + n else 55 + n

/-- The four bytes of `fmt.Sprintf("%04X", x)` for a 16-bit value `x`. -/
def hex4 (x : Nat) : List Nat :=
  [hexDigit (x / 4096 % 16), hexDigit (x / 256 % 16), hexDigit (x / 16 % 16), hexDigit (x % 16)]

/-! Specification-side checksum, built from the spec's words rather than from
the Go constant: the polynomial x^16+x^15+x^2+1 (normal form 0x8005, the
leading x^16 term implicit) is bit-reversed to obtain the table constant, the
256-entry table is generated from it, and the checksum is the fold
`table[low_byte(acc) XOR byte] XOR (acc >> 8)` from accumulator 0 with no
initial and no final complement. -/

/-- Reversal of the low 16 bits of `n` (least significant bit first). -/
def reverseBits16 (n : Nat) : Nat :=
  (List.range 16).foldl (fun acc i => acc * 2 + n / 2 ^ i % 2) 0

/-- The bit-reversed form of the IBM polynomial x^16+x^15+x^2+1. -/
def specIBMPoly : Nat := reverseBits16 0x8005

/-- Table construction step using the spec-derived polynomial constant. -/
def specCrcStep (c : Nat) : Nat := if c % 2 = 1 then (c / 2) ^^^ specIBMPoly else c / 2

/-- The spec's 256-entry bit-reversed IBM table. -/
def specTable (n : Nat) : Nat := specCrcStep^[8] n

/-- The checksum fold as the spec describes it. -/
def specChecksum (data : List Nat) : Nat :=
  data.foldl (fun crc v => specTable ((crc % 256) ^^^ (v % 256)) ^^^ (crc >>> 8)) 0

/-! ## Frame reader -/

/-- A P1 telegram: a byte slice. -/
abbrev Telegram := List Nat

/-- Model of `bufio.Reader.ReadBytes(d)`: the consumed bytes up to and
including the first occurrence of `d`, and the remaining stream; `none` when
the stream is exhausted first (the data read before EOF is consumed and
discarded by the caller's `continue`/`break`). -/
def splitAtDelim (d : Nat) : List Nat → Option (List Nat × List Nat)
  | [] => none
  | x :: xs =>
    if x = d then some ([x], xs)
    else
      match splitAtDelim d xs with
      | none => none
      | some (p, r) => some (x :: p, r)

/-- One structural-fuel unfolding of the `startPolling` loop.  Each iteration:
read through `'/'` (47) and unread it, read through `'!'` (33) giving the
frame `data`, read through `'\n'` (10) giving the CRC bytes; deliver `data`
exactly when the CRC read is six bytes whose first four equal
`fmt.Sprintf("%04X", p1crc16 data)`.  Any EOF ends the loop. -/
def pollAux : Nat → List Nat → List Telegram
  | 0, _ => []
  | fuel + 1, s =>
    match splitAtDelim 47 s with
    | none => []
    | some (_, r) =>
      match splitAtDelim 33 (47 :: r) with
      | none => []
      | some (data, rest1) =>
        match splitAtDelim 10 rest1 with
        | none => []
        | some (crcBytes, rest2) =>
          if crcBytes.length = 6 ∧ crcBytes.take 4 = hex4 (p1crc16 data) then
            data :: pollAux fuel rest2
          else
            pollAux fuel rest2

/-- The frame reader: the list of telegrams delivered to the channel, in
order, for the whole input stream.  `input.length` is enough fuel because
every loop iteration consumes at least two bytes of the stream. -/
def startPolling (input : List Nat) : List Telegram := pollAux input.length input

/-- Claim-side delivery invariant: each delivered telegram starts with `'/'`,
ends with `'!'`, and sits in the stream followed immediately by a six-byte
CRC read (ending in `'\n'`) whose first four bytes equal the rendered
checksum of the telegram; successive deliveries occupy disjoint, in-order
spans of the stream, so no telegram occurrence is delivered twice. -/
def deliveredSpec : List Nat → List Telegram → Prop
  | _, [] => True
  | s, t :: ts =>
    t.head? = some 47 ∧ t.getLast? = some 33 ∧
      ∃ g tr rest, s = g ++ t ++ tr ++ rest ∧ tr.length = 6 ∧ tr.getLast? = some 10 ∧
        tr.take 4 = hex4 (p1crc16 t) ∧ deliveredSpec rest ts

/-- A well-formed frame on the wire: starts with `'/'`, ends with `'!'`, and
contains no interior `'!'`. -/
def wfFrame (f : List Nat) : Prop :=
  f.head? = some 47 ∧ f.getLast? = some 33 ∧ 33 ∉ f.dropLast

/-- A well-formed CRC trailer on the wire: six bytes whose only `'\n'` is the
final byte. -/
def wfTrailer (tr : List Nat) : Prop :=
  tr.length = 6 ∧ tr.getLast? = some 10 ∧ 10 ∉ tr.dropLast

/-! ## Telegram body parser -/

/-- Index of the first occurrence of `sep` as a contiguous sublist
(Go `strings.Index` / `bytes.Index`), `none` when absent. -/
def findOcc {α : Type} [DecidableEq α] (sep : List α) : List α → Option Nat
  | [] => none
  | x :: xs => if sep.isPrefixOf (x :: xs) then some 0 else (findOcc sep xs).map (· + 1)

/-- Fuel-indexed splitting on every occurrence of `sep` (Go `strings.Split`
with a non-empty separator). -/
def goSplitAux {α : Type} [DecidableEq α] (sep : List α) : Nat → List α → List (List α)
  | 0, s => [s]
  | fuel + 1, s =>
    match findOcc sep s with
    | none => [s]
    | some i => s.take i :: goSplitAux sep fuel (s.drop (i + sep.length))

/-- Go `strings.Split(s, sep)` for non-empty `sep`: `s.length` is enough fuel
because every removed separator occurrence consumes at least one element. -/
def goSplit {α : Type} [DecidableEq α] (sep s : List α) : List (List α) :=
  goSplitAux sep s.length s

/-- Outcome of `Telegram.Parse`: a successful record mapping, a returned Go
`error` (the distinct message strings are collapsed), or a runtime panic. -/
inductive ParseOutcome where
  | ok : List (List Nat × List (List Nat)) → ParseOutcome
  | err : ParseOutcome
  | crash : ParseOutcome
deriving DecidableEq, Repr

/-- Go map assignment `m[k] = v`: replace the value of an existing key, else
add the pair.  Models `map[string][]string` content as an association list
with unique keys. -/
def upsert (k : List Nat) (v : List (List Nat)) :
    List (List Nat × List (List Nat)) → List (List Nat × List (List Nat))
  | [] => [(k, v)]
  | (k2, v2) :: rest => if k2 = k then (k, v) :: rest else (k2, v2) :: upsert k v rest

/-- The data-line loop of `Telegram.Parse`: for each line, find the first
`'('` (40) — missing means an error return; slice `l[idCodeEnd+1 : len(l)-1]`
— a start index past the end index (the `'('` is the final byte) is a Go
slice-bounds panic; otherwise split the value region on `")("` ([41, 40]) and
assign it to the identifier code `l[:idCodeEnd]`. -/
def parseDataLines : List (List Nat × List (List Nat)) → List (List Nat) → ParseOutcome
  | acc, [] => .ok acc
  | acc, l :: rest =>
    match findOcc [40] l with
    | none => .err
    | some j =>
      if l.length - 1 < j + 1 then .crash
      else
        parseDataLines
          (upsert (l.take j) (goSplit [41, 40] ((l.take (l.length - 1)).drop (j + 1))) acc) rest

/-- `Telegram.Parse` from the source: split on CRLF; fewer than two lines is
an error; `lines[0][0]` panics on an empty first line, and is an error when
not `'/'` (47); a non-empty second line is an error; the slice
`lines[2 : len(lines)-1]` panics when there are exactly two lines; the
remaining data lines (all but the last) go through the data-line loop. -/
def Telegram.Parse (t : Telegram) : ParseOutcome :=
  match goSplit [13, 10] t with
  | [] => .err
  | [_] => .err
  | l0 :: l1 :: ls =>
    match l0 with
    | [] => .crash
    | c :: _ =>
      if c ≠ 47 then .err
      else if l1 ≠ [] then .err
      else
        match ls with
        | [] => .crash
        | _ :: _ => parseDataLines [] ls.dropLast

/-- `Telegram.Identifier` from the source: `t[5:i]` where `i` is the index of
the first `"\r\n\r\n"`; `none` models the Go panic when the index is `-1`
(slice with negative end) or smaller than 5 (start past end). -/
def Telegram.Identifier (t : Telegram) : Option (List Nat) :=
  match findOcc [13, 10, 13, 10] t with
  | none => none
  | some i => if 5 ≤ i then some ((t.take i).drop 5) else none

/-! Specification-side predicates on the CRLF-split lines, phrased from the
claims' wording rather than from the code's control flow. -/

/-- A data line that parses: it contains a `'('` that is not its final byte
(`pre` is everything before the first `'('`). -/
def lineOkP (l : List Nat) : Prop :=
  ∃ pre post, l = pre ++ 40 :: post ∧ 40 ∉ pre ∧ post ≠ []

/-- A data line whose first `'('` is the line's final byte. -/
def lineCrashP (l : List Nat) : Prop :=
  ∃ pre, l = pre ++ [40] ∧ 40 ∉ pre

/-- The claim's StructureError conditions, amended by the panic carve-outs:
fewer than two lines; or a non-empty first line not starting with `'/'`; or a
non-empty second line; or, all earlier data lines being well formed, a data
line with no `'('`. -/
def specErr (lines : List (List Nat)) : Prop :=
  lines.length < 2 ∨
    ∃ c l0r l1 ls, lines = (c :: l0r) :: l1 :: ls ∧
      (c ≠ 47 ∨
        (c = 47 ∧ l1 ≠ []) ∨
        (c = 47 ∧ l1 = [] ∧
          ∃ pre l post, ls.dropLast = pre ++ l :: post ∧ 40 ∉ l ∧ ∀ x ∈ pre, lineOkP x))

/-- The panic cases of `Telegram.Parse`: an empty first line; or a body of
exactly two lines (header plus one more); or, all earlier data lines being
well formed, a data line whose first `'('` is its final byte. -/
def specCrash (lines : List (List Nat)) : Prop :=
  ∃ l0 l1 ls, lines = l0 :: l1 :: ls ∧
    (l0 = [] ∨
      (∃ l0r, l0 = 47 :: l0r ∧ l1 = [] ∧ ls = []) ∨
      (∃ l0r, l0 = 47 :: l0r ∧ l1 = [] ∧
        ∃ pre l post, ls.dropLast = pre ++ l :: post ∧ lineCrashP l ∧ ∀ x ∈ pre, lineOkP x))

/-- The claim's per-line record: the prefix before the first `'('` is the
key; the remainder with the final byte (the closing `')'`) stripped, split on
`")("`, is the value list. -/
def specLine (l : List Nat) : List Nat × List (List Nat) :=
  (l.takeWhile (fun c => c ≠ 40),
    goSplit [41, 40] (((l.dropWhile (fun c => c ≠ 40)).drop 1).dropLast))

/-- The claim's record mapping: every data line's record inserted in order
(later duplicate keys overwrite earlier ones). -/
def specMapping (ds : List (List Nat)) : List (List Nat × List (List Nat)) :=
  ds.foldl (fun m l => upsert (specLine l).1 (specLine l).2 m) []

/-! ## Value and timestamp micro-parsers -/

/-- ASCII decimal digit test. -/
def isDigit (c : Nat) : Bool := decide (48 ≤ c ∧ c ≤ 57)

/-- Numeric value of a list of ASCII digits. -/
def digitsVal (ds : List Nat) : Nat := ds.foldl (fun a c => a * 10 + (c - 48)) 0

/-- Unsigned part of the `strconv.ParseFloat` model: digits with an optional
single `'.'` (46) and fraction digits; at least one digit overall. -/
def parseUnsignedDecimal (s : List Nat) : Option ℚ :=
  let ip := s.takeWhile isDigit
  match s.dropWhile isDigit with
  | [] => if ip = [] then none else some ((digitsVal ip : ℕ) : ℚ)
  | c :: frac =>
    if c = 46 ∧ frac.all isDigit ∧ (ip ≠ [] ∨ frac ≠ []) then
      some (((digitsVal ip : ℕ) : ℚ) + ((digitsVal frac : ℕ) : ℚ) / (10 : ℚ) ^ frac.length)
    else none

/-- Model of `strconv.ParseFloat(s, 64)` over `ℚ`, restricted to plain
decimal notation: optional `'+'` (43) or `'-'` (45) sign, then an unsigned
decimal.  Exponents, hex floats and inf/nan are not modelled (no claim uses
them); IEEE rounding is idealised away by computing in `ℚ`. -/
def parseFloatModel (s : List Nat) : Option ℚ :=
  match s with
  | [] => none
  | c :: r =>
    if c = 43 then parseUnsignedDecimal r
    else if c = 45 then (parseUnsignedDecimal r).map (fun q => -q)
    else parseUnsignedDecimal (c :: r)

/-- Outcome of `ParseValueWithUnit`: a value/unit pair, the
`ErrorParseValueWithUnit` sentinel (wrong number of `'*'`-separated parts),
or a `strconv.ParseFloat` failure. -/
inductive ValueUnitOutcome where
  | ok : ℚ → List Nat → ValueUnitOutcome
  | errFormat : ValueUnitOutcome
  | errFloat : ValueUnitOutcome
deriving DecidableEq, Repr

/-- `ParseValueWithUnit` from the source: split on `'*'` (42); exactly two
parts required; parse the first as a float; if the unit starts with `'k'`
(107) multiply the value by 1000 and strip the `'k'`. -/
def ParseValueWithUnit (input : List Nat) : ValueUnitOutcome :=
  match goSplit [42] input with
  | [p0, p1] =>
    match parseFloatModel p0 with
    | none => .errFloat
    | some v =>
      if p1.take 1 = [107] then .ok (v * 1000) (p1.drop 1) else .ok v p1
  | _ => .errFormat

/-- Calendar fields of a decoded timestamp. -/
structure DateFields where
  year : Nat
  month : Nat
  day : Nat
  hour : Nat
  minute : Nat
  second : Nat
deriving DecidableEq, Repr

/-- Outcome of `ParseTimestamp`: decoded fields with the chosen timezone
designation, the missing-DST-indicator error, a `time.ParseInLocation`
failure, or the panic on the empty input (index `-1`). -/
inductive TimestampOutcome where
  | ok : DateFields → String → TimestampOutcome
  | errIndicator : TimestampOutcome
  | errParse : TimestampOutcome
  | crash : TimestampOutcome
deriving DecidableEq, Repr

/-- The source's summer timezone designation constant. -/
def summerTimezone : String := "CEST"

/-- The source's winter timezone designation constant. -/
def winterTimezone : String := "CET"

/-- Gregorian leap-year test, as in Go's `time` package. -/
def isLeap (y : Nat) : Bool := decide (y % 4 = 0 ∧ (y % 100 ≠ 0 ∨ y % 400 = 0))

/-- Days in a month, as validated by Go's `time.Parse`. -/
def daysInMonth (y m : Nat) : Nat :=
  if m = 2 then (if isLeap y then 29 else 28)
  else if m = 4 ∨ m = 6 ∨ m = 9 ∨ m = 11 then 30
  else 31

/-- Modelled from the spec: Go `time.ParseInLocation` with layout
`"060102150405 MST"` applied to twelve bytes followed by a known zone
abbreviation.  It succeeds exactly when the body is twelve digits forming
in-range `YYMMDDhhmmss` fields (two-digit years 69..99 map to 19xx, 00..68
to 20xx, per Go); any other shape is a parse error. -/
def parseLayout12 (body : List Nat) : Option DateFields :=
  if body.length = 12 ∧ body.all isDigit then
    let yy := digitsVal (body.take 2)
    let mo := digitsVal ((body.drop 2).take 2)
    let dy := digitsVal ((body.drop 4).take 2)
    let hh := digitsVal ((body.drop 6).take 2)
    let mi := digitsVal ((body.drop 8).take 2)
    let ss := digitsVal ((body.drop 10).take 2)
    let y := if yy < 69 then 2000 + yy else 1900 + yy
    if 1 ≤ mo ∧ mo ≤ 12 ∧ 1 ≤ dy ∧ dy ≤ daysInMonth y mo ∧ hh ≤ 23 ∧ mi ≤ 59 ∧ ss ≤ 59 then
      some ⟨y, mo, dy, hh, mi, ss⟩
    else none
  else none

/-- `ParseTimestamp` from the source: the final byte selects the timezone
designation (`'S'` = 83 chooses `summerTimezone`, `'W'` = 87 chooses
`winterTimezone`, anything else is the DST-indicator error); the rest of the
string goes through the fixed-layout parse in the fixed Dutch location.  The
host timezone does not appear anywhere in the model. -/
def ParseTimestamp (s : List Nat) : TimestampOutcome :=
  match s.getLast? with
  | none => .crash
  | some c =>
    if c = 83 then
      match parseLayout12 s.dropLast with
      | some f => .ok f summerTimezone
      | none => .errParse
    else if c = 87 then
      match parseLayout12 s.dropLast with
      | some f => .ok f winterTimezone
      | none => .errParse
    else .errIndicator

/-! ## Concrete wire data used by counterexamples and witnesses -/

/-- The two-field telegram of the spec's test vector (header text `HDR`). -/
def hdrTelegram : Telegram := strBytes "/HDR\r\n\r\n1-0:1.7.0(0001.234*kW)\r\n!"

/-- Its correctly computed CRC trailer: `"4131" ++ CRLF`. -/
def hdrTrailer : List Nat := strBytes "4131\r\n"

/-- The same telegram with the standard five-byte `/XXXZ` header prefix in
front of the identifier text. -/
def hdrTelegramFixed : Telegram := strBytes "/XXXZHDR\r\n\r\n1-0:1.7.0(0001.234*kW)\r\n!"

/-- A checksum-valid telegram with a header line, the blank separator line
and the `'!'` line but no data lines. -/
def noDataTelegram : Telegram := strBytes "/A\r\n\r\n!"

/-- Its correctly computed CRC trailer: `"B1A8" ++ CRLF`. -/
def noDataTrailer : List Nat := strBytes "B1A8\r\n"

/-- A telegram with one well-formed data line. -/
def oneDataTelegram : Telegram := strBytes "/A\r\n\r\n1(2)\r\n!"

/-- A telegram whose single data line ends in its first `'('`. -/
def openParenTelegram : Telegram := strBytes "/XXXZ Id\r\n\r\n1-0:1.7.0(\r\n!"

/-- A telegram whose CRLF split has exactly two lines. -/
def twoLineTelegram : Telegram := strBytes "/A\r\n"

/-! ## Lemmas about the frame reader -/

theorem splitAtDelim_sound {d : Nat} :
    ∀ {s p r : List Nat}, splitAtDelim d s = some (p, r) →
      s = p ++ r ∧ p ≠ [] ∧ p.getLast? = some d ∧ d ∉ p.dropLast := by
  intro s
  induction s with
  | nil => intro p r h; simp [splitAtDelim] at h
  | cons x xs ih =>
    intro p r h
    by_cases hx : x = d
    · subst hx
      simp [splitAtDelim] at h
      obtain ⟨hp, hr⟩ := h
      subst hp; subst hr
      simp
    · rw [splitAtDelim, if_neg hx] at h
      cases hsplit : splitAtDelim d xs with
      | none => rw [hsplit] at h; simp at h
      | some pr =>
        obtain ⟨p2, r2⟩ := pr
        rw [hsplit] at h
        simp at h
        obtain ⟨hp, hr⟩ := h
        obtain ⟨h1, h2, h3, h4⟩ := ih hsplit
        subst hp; subst hr
        refine ⟨by simp [h1], by simp, ?_, ?_⟩
        · cases p2 with
          | nil => exact absurd rfl h2
          | cons y ys => simpa using h3
        · cases p2 with
          | nil => exact absurd rfl h2
          | cons y ys =>
            simp only [List.dropLast_cons₂, List.mem_cons, not_or]
            refine ⟨fun hdx => hx hdx.symm, ?_⟩
            simpa using h4

theorem splitAtDelim_none {d : Nat} :
    ∀ {s : List Nat}, splitAtDelim d s = none ↔ d ∉ s := by
  intro s
  induction s with
  | nil => simp [splitAtDelim]
  | cons x xs ih =>
    by_cases hx : x = d
    · subst hx; simp [splitAtDelim]
    · rw [splitAtDelim, if_neg hx]
      cases hsplit : splitAtDelim d xs with
      | none =>
        simp only [List.mem_cons, not_or]
        constructor
        · intro _; exact ⟨fun hdx => hx hdx.symm, ih.mp hsplit⟩
        · intro _; trivial
      | some pr =>
        obtain ⟨p2, r2⟩ := pr
        simp only [List.mem_cons, not_or]
        constructor
        · intro h; simp at h
        · intro ⟨_, hmem⟩
          rw [← ih] at hmem
          rw [hmem] at hsplit
          exact absurd hsplit (by simp)

theorem splitAtDelim_append_left {d : Nat} :
    ∀ {g s : List Nat}, d ∉ g →
      splitAtDelim d (g ++ s) = (splitAtDelim d s).map (fun pr => (g ++ pr.1, pr.2)) := by
  intro g
  induction g with
  | nil =>
    intro s _
    simp only [List.nil_append]
    cases splitAtDelim d s with
    | none => simp
    | some pr => simp
  | cons x g ih =>
    intro s hg
    simp only [List.mem_cons, not_or] at hg
    obtain ⟨hxd, hgd⟩ := hg
    rw [List.cons_append, splitAtDelim, if_neg (fun h => hxd h.symm), ih hgd]
    cases splitAtDelim d s with
    | none => simp
    | some pr => simp

theorem splitAtDelim_cons_self {d : Nat} {xs : List Nat} :
    splitAtDelim d (d :: xs) = some ([d], xs) := by
  simp [splitAtDelim]

theorem splitAtDelim_exact {d : Nat} {a b : List Nat}
    (h1 : a.getLast? = some d) (h2 : d ∉ a.dropLast) :
    splitAtDelim d (a ++ b) = some (a, b) := by
  have hne : a ≠ [] := by intro h; rw [h] at h1; simp at h1
  have hdec : a = a.dropLast ++ [d] := by
    conv_lhs => rw [← List.dropLast_append_getLast hne]
    have : a.getLast hne = d := by
      rw [List.getLast?_eq_getLast_of_ne_nil hne] at h1
      exact Option.some.inj h1
    rw [this]
  conv_lhs => rw [hdec, List.append_assoc]
  rw [splitAtDelim_append_left h2, List.singleton_append, splitAtDelim_cons_self]
  simp [← hdec]

theorem splitAtDelim_rest_lt {d : Nat} {s p r : List Nat}
    (h : splitAtDelim d s = some (p, r)) : r.length < s.length := by
  obtain ⟨h1, h2, _, _⟩ := splitAtDelim_sound h
  subst h1
  have : 0 < p.length := List.length_pos.mpr h2
  simp only [List.length_append]
  omega

theorem pollAux_chain_le {s p r data rest1 crc rest2 : List Nat}
    (h1 : splitAtDelim 47 s = some (p, r))
    (h2 : splitAtDelim 33 (47 :: r) = some (data, rest1))
    (h3 : splitAtDelim 10 rest1 = some (crc, rest2)) :
    rest2.length + 2 ≤ s.length := by
  have e1 := splitAtDelim_rest_lt h1
  have e2 := splitAtDelim_rest_lt h2
  have e3 := splitAtDelim_rest_lt h3
  simp only [List.length_cons] at e2
  omega

theorem pollAux_mono : ∀ (f1 f2 : Nat) (s : List Nat), s.length ≤ f1 → s.length ≤ f2 →
    pollAux f1 s = pollAux f2 s := by
  intro f1
  induction f1 with
  | zero =>
    intro f2 s hs1 _
    have hs : s = [] := List.length_eq_zero.mp (Nat.le_zero.mp hs1)
    subst hs
    cases f2 with
    | zero => rfl
    | succ m => simp [pollAux, splitAtDelim]
  | succ k ih =>
    intro f2 s hs1 hs2
    cases f2 with
    | zero =>
      have hs : s = [] := List.length_eq_zero.mp (Nat.le_zero.mp hs2)
      subst hs
      simp [pollAux, splitAtDelim]
    | succ m =>
      show pollAux (k + 1) s = pollAux (m + 1) s
      rw [pollAux, pollAux]
      cases h1 : splitAtDelim 47 s with
      | none => rfl
      | some pr1 =>
        obtain ⟨p, r⟩ := pr1
        dsimp only
        cases h2 : splitAtDelim 33 (47 :: r) with
        | none => rfl
        | some pr2 =>
          obtain ⟨data, rest1⟩ := pr2
          dsimp only
          cases h3 : splitAtDelim 10 rest1 with
          | none => rfl
          | some pr3 =>
            obtain ⟨crc, rest2⟩ := pr3
            dsimp only
            have hlen := pollAux_chain_le h1 h2 h3
            have hrec := ih m rest2 (by omega) (by omega)
            by_cases hc : crc.length = 6 ∧ crc.take 4 = hex4 (p1crc16 data)
            · simp only [if_pos hc, hrec]
            · simp only [if_neg hc, hrec]

theorem startPolling_unfold (s : List Nat) :
    startPolling s =
      match splitAtDelim 47 s with
      | none => []
      | some (_, r) =>
        match splitAtDelim 33 (47 :: r) with
        | none => []
        | some (data, rest1) =>
          match splitAtDelim 10 rest1 with
          | none => []
          | some (crcBytes, rest2) =>
            if crcBytes.length = 6 ∧ crcBytes.take 4 = hex4 (p1crc16 data) then
              data :: startPolling rest2
            else
              startPolling rest2 := by
  show pollAux s.length s = _
  cases hs : s.length with
  | zero =>
    have hnil : s = [] := List.length_eq_zero.mp hs
    subst hnil
    simp [pollAux, splitAtDelim]
  | succ n =>
    rw [pollAux]
    cases h1 : splitAtDelim 47 s with
    | none => rfl
    | some pr1 =>
      obtain ⟨p, r⟩ := pr1
      dsimp only
      cases h2 : splitAtDelim 33 (47 :: r) with
      | none => rfl
      | some pr2 =>
        obtain ⟨data, rest1⟩ := pr2
        dsimp only
        cases h3 : splitAtDelim 10 rest1 with
        | none => rfl
        | some pr3 =>
          obtain ⟨crc, rest2⟩ := pr3
          dsimp only
          have hlen := pollAux_chain_le h1 h2 h3
          have hrec : pollAux n rest2 = startPolling rest2 :=
            pollAux_mono n rest2.length rest2 (by omega) le_rfl
          by_cases hc : crc.length = 6 ∧ crc.take 4 = hex4 (p1crc16 data)
          · simp only [if_pos hc, hrec]
          · simp only [if_neg hc, hrec]

theorem eq_dropLast_append_getLast {l : List Nat} {a : Nat} (h : l.getLast? = some a) :
    l = l.dropLast ++ [a] := by
  have hne : l ≠ [] := by intro he; rw [he] at h; simp at h
  have ha : l.getLast hne = a := by
    rw [List.getLast?_eq_getLast_of_ne_nil hne] at h
    exact Option.some.inj h
  conv_lhs => rw [← List.dropLast_append_getLast hne]
  rw [ha]

theorem deliveredSpec_prepend {x r : List Nat} {ts : List Telegram}
    (h : deliveredSpec r ts) : deliveredSpec (x ++ r) ts := by
  cases ts with
  | nil => trivial
  | cons t ts =>
    obtain ⟨h1, h2, g, tr, rest, heq, htr6, htrl, htr4, hrec⟩ := h
    exact ⟨h1, h2, x ++ g, tr, rest, by rw [heq]; simp [List.append_assoc], htr6, htrl, htr4,
      hrec⟩

theorem head_eq_of_cons_eq_append {a : Nat} {r l rest : List Nat}
    (h : a :: r = l ++ rest) (hne : l ≠ []) : l.head? = some a := by
  cases l with
  | nil => exact absurd rfl hne
  | cons c cs =>
    simp only [List.cons_append, List.cons.injEq] at h
    simp [h.1]

/-- C1: every Telegram that `startPolling` delivers starts with the `'/'`
delimiter, ends with the `'!'` delimiter, and is immediately followed on the
wire by the six-byte CRC read whose first four bytes equal the recomputed
checksum rendered as four uppercase hexadecimal digits; the deliveries occupy
disjoint, in-order spans of the input stream, so no telegram occurrence is
delivered twice. -/
theorem dsmr_C1 (s : List Nat) : deliveredSpec s (startPolling s) := by
  suffices h : ∀ n (s : List Nat), s.length ≤ n → deliveredSpec s (startPolling s) from
    h s.length s le_rfl
  intro n
  induction n with
  | zero =>
    intro s hs
    have hnil : s = [] := List.length_eq_zero.mp (Nat.le_zero.mp hs)
    subst hnil
    exact trivial
  | succ k ih =>
    intro s hs
    rw [startPolling_unfold]
    cases h1 : splitAtDelim 47 s with
    | none => exact trivial
    | some pr1 =>
      obtain ⟨p, r⟩ := pr1
      dsimp only
      cases h2 : splitAtDelim 33 (47 :: r) with
      | none => exact trivial
      | some pr2 =>
        obtain ⟨data, rest1⟩ := pr2
        dsimp only
        cases h3 : splitAtDelim 10 rest1 with
        | none => exact trivial
        | some pr3 =>
          obtain ⟨crc, rest2⟩ := pr3
          dsimp only
          obtain ⟨hs1, hp_ne, hp_last, _⟩ := splitAtDelim_sound h1
          obtain ⟨hs2, hd_ne, hd_last, _⟩ := splitAtDelim_sound h2
          obtain ⟨hs3, hc_ne, hc_last, _⟩ := splitAtDelim_sound h3
          have hlen := pollAux_chain_le h1 h2 h3
          have hdecomp : s = p.dropLast ++ data ++ crc ++ rest2 := by
            calc s = p ++ r := hs1
              _ = (p.dropLast ++ [47]) ++ r := by rw [← eq_dropLast_append_getLast hp_last]
              _ = p.dropLast ++ (47 :: r) := by simp
              _ = p.dropLast ++ (data ++ rest1) := by rw [← hs2]
              _ = p.dropLast ++ (data ++ (crc ++ rest2)) := by rw [← hs3]
              _ = p.dropLast ++ data ++ crc ++ rest2 := by simp [List.append_assoc]
          by_cases hc : crc.length = 6 ∧ crc.take 4 = hex4 (p1crc16 data)
          · rw [if_pos hc]
            refine ⟨head_eq_of_cons_eq_append hs2 hd_ne, hd_last,
              p.dropLast, crc, rest2, by simpa [List.append_assoc] using hdecomp,
              hc.1, hc_last, hc.2, ih rest2 (by omega)⟩
          · rw [if_neg hc]
            have hdecomp2 : s = (p.dropLast ++ data ++ crc) ++ rest2 := by
              simpa [List.append_assoc] using hdecomp
            rw [hdecomp2]
            exact deliveredSpec_prepend (ih rest2 (by omega))

theorem startPolling_frame (g f tr rest : List Nat) (hg : 47 ∉ g)
    (hf : wfFrame f) (htr : wfTrailer tr) :
    startPolling (g ++ (f ++ (tr ++ rest))) =
      if tr.take 4 = hex4 (p1crc16 f) then f :: startPolling rest
      else startPolling rest := by
  obtain ⟨hfh, hfl, hfm⟩ := hf
  obtain ⟨htl, htrl, htrm⟩ := htr
  cases f with
  | nil => simp at hfh
  | cons c ftail =>
    have hc47 : c = 47 := by simpa using hfh
    subst hc47
    rw [startPolling_unfold]
    have h1 : splitAtDelim 47 (g ++ ((47 :: ftail) ++ (tr ++ rest)))
        = some (g ++ [47], ftail ++ (tr ++ rest)) := by
      rw [List.cons_append, splitAtDelim_append_left hg, splitAtDelim_cons_self]
      rfl
    rw [h1]
    dsimp only
    have h2 : splitAtDelim 33 ((47 :: ftail) ++ (tr ++ rest))
        = some (47 :: ftail, tr ++ rest) := splitAtDelim_exact hfl hfm
    rw [List.cons_append] at h2
    rw [h2]
    dsimp only
    have h3 : splitAtDelim 10 (tr ++ rest) = some (tr, rest) := splitAtDelim_exact htrl htrm
    rw [h3]
    dsimp only
    by_cases hcrc : tr.take 4 = hex4 (p1crc16 (47 :: ftail))
    · rw [if_pos ⟨htl, hcrc⟩, if_pos hcrc]
    · rw [if_neg (fun hand => hcrc hand.2), if_neg hcrc]

/-- C3: a stream of `'/'`-free noise, a well-formed frame with a matching
trailer, a well-formed frame with a mismatching trailer, and a well-formed
frame with a matching trailer delivers exactly the first and third frames,
in order; the middle frame is never delivered. -/
theorem dsmr_C3 (noise f1 tr1 f2 tr2 f3 tr3 : List Nat)
    (hn : 47 ∉ noise)
    (hf1 : wfFrame f1) (hf2 : wfFrame f2) (hf3 : wfFrame f3)
    (ht1 : wfTrailer tr1) (ht2 : wfTrailer tr2) (ht3 : wfTrailer tr3)
    (hc1 : tr1.take 4 = hex4 (p1crc16 f1))
    (hc2 : tr2.take 4 ≠ hex4 (p1crc16 f2))
    (hc3 : tr3.take 4 = hex4 (p1crc16 f3)) :
    startPolling (noise ++ f1 ++ tr1 ++ f2 ++ tr2 ++ f3 ++ tr3) = [f1, f3] := by
  have e1 : noise ++ f1 ++ tr1 ++ f2 ++ tr2 ++ f3 ++ tr3
      = noise ++ (f1 ++ (tr1 ++ (f2 ++ (tr2 ++ (f3 ++ tr3))))) := by
    simp [List.append_assoc]
  rw [e1, startPolling_frame noise f1 tr1 (f2 ++ (tr2 ++ (f3 ++ tr3))) hn hf1 ht1,
    if_pos hc1]
  have h2 := startPolling_frame [] f2 tr2 (f3 ++ tr3) (by simp) hf2 ht2
  rw [List.nil_append] at h2
  rw [h2, if_neg hc2]
  have h3 := startPolling_frame [] f3 tr3 [] (by simp) hf3 ht3
  rw [List.nil_append, List.append_nil] at h3
  rw [h3, if_pos hc3]
  rfl

/-- C9: a stream in which no `'!'` occurs at or after any `'/'` (so the
stream is exhausted while seeking the start delimiter, or ends mid-frame
before the end delimiter) makes the reader deliver nothing: the consumer
sees an empty, cleanly terminated sequence and no error. -/
theorem dsmr_C9 (s : List Nat)
    (h : ∀ i j : Fin s.length, i.val ≤ j.val → s.get i = 47 → s.get j ≠ 33) :
    startPolling s = [] := by
  rw [startPolling_unfold]
  cases h1 : splitAtDelim 47 s with
  | none => rfl
  | some pr1 =>
    obtain ⟨p, r⟩ := pr1
    dsimp only
    cases h2 : splitAtDelim 33 (47 :: r) with
    | none => rfl
    | some pr2 =>
      exfalso
      obtain ⟨data, rest1⟩ := pr2
      obtain ⟨hs1, hp_ne, hp_last, _⟩ := splitAtDelim_sound h1
      obtain ⟨hs2, hd_ne, hd_last, _⟩ := splitAtDelim_sound h2
      cases data with
      | nil => exact hd_ne rfl
      | cons c dtail =>
        simp only [List.cons_append, List.cons.injEq] at hs2
        obtain ⟨hc, hr⟩ := hs2
        have hdtail_ne : dtail ≠ [] := by
          intro hdn
          subst hdn
          simp at hd_last
          omega
        have hdtail : dtail = dtail.dropLast ++ [33] := by
          apply eq_dropLast_append_getLast
          cases dtail with
          | nil => exact absurd rfl hdtail_ne
          | cons y ys => simpa using hd_last
        have hsdecomp : s = p.dropLast ++ 47 :: (dtail.dropLast ++ 33 :: rest1) := by
          calc s = p ++ r := hs1
            _ = (p.dropLast ++ [47]) ++ r := by rw [← eq_dropLast_append_getLast hp_last]
            _ = p.dropLast ++ 47 :: r := by simp
            _ = p.dropLast ++ 47 :: (dtail ++ rest1) := by rw [← hr]
            _ = p.dropLast ++ 47 :: ((dtail.dropLast ++ [33]) ++ rest1) := by
                rw [← hdtail]
            _ = p.dropLast ++ 47 :: (dtail.dropLast ++ 33 :: rest1) := by simp
        set A := p.dropLast with hA
        set B := dtail.dropLast with hB
        have hliA : A.length < s.length := by
          rw [hsdecomp]
          simp only [List.length_append, List.length_cons]
          omega
        have hliJ : A.length + 1 + B.length < s.length := by
          rw [hsdecomp]
          simp only [List.length_append, List.length_cons]
          omega
        have hgetA : s.get ⟨A.length, hliA⟩ = 47 := by
          have hq : s.get? A.length = some 47 := by
            rw [hsdecomp, List.get?_append_right (le_refl A.length)]
            simp
          rw [List.get?_eq_get hliA] at hq
          exact Option.some.inj hq
        have hgetJ : s.get ⟨A.length + 1 + B.length, hliJ⟩ = 33 := by
          have hsd2 : s = (A ++ 47 :: B) ++ 33 :: rest1 := by
            rw [hsdecomp]
            simp
          have hlen2 : (A ++ 47 :: B).length = A.length + 1 + B.length := by
            simp only [List.length_append, List.length_cons]
            omega
          have hq : s.get? (A.length + 1 + B.length) = some 33 := by
            rw [hsd2, ← hlen2, List.get?_append_right (le_refl _)]
            simp
          rw [List.get?_eq_get hliJ] at hq
          exact Option.some.inj hq
        exact h ⟨A.length, hliA⟩ ⟨A.length + 1 + B.length, hliJ⟩
          (by show A.length ≤ A.length + 1 + B.length; omega) hgetA hgetJ

/-- C2: the source checksum equals the spec's fold: accumulator starts at 0,
each byte updates it to `table[low_byte(acc) XOR byte] XOR (acc >> 8)` where
the table is the 256-entry bit-reversed IBM CRC-16 table derived from the
polynomial x^16+x^15+x^2+1, and no initial or final complement is applied.
Both sides are pure Lean functions of the byte list, so determinism is
inherent. -/
theorem dsmr_C2 (data : List Nat) : p1crc16 data = specChecksum data := by
  have hp : specIBMPoly = 0xA001 := by decide
  have htab : specTable = IBMTable := by
    funext n
    have hstep : specCrcStep = crcStep := by
      funext c
      simp only [specCrcStep, crcStep, hp]
    simp only [specTable, IBMTable, hstep]
  simp only [p1crc16, specChecksum, htab]

theorem crcStep_lt {c : Nat} (h : c < 2 ^ 16) : crcStep c < 2 ^ 16 := by
  rw [crcStep]
  by_cases h2 : c % 2 = 1
  · rw [if_pos h2]
    exact Nat.xor_lt_two_pow (by omega) (by norm_num)
  · rw [if_neg h2]
    omega

theorem IBMTable_lt {n : Nat} (h : n < 2 ^ 16) : IBMTable n < 2 ^ 16 := by
  show crcStep^[8] n < 2 ^ 16
  rw [show (8 : Nat) = 7 + 1 from rfl, Function.iterate_succ_apply]
  rw [show (7 : Nat) = 6 + 1 from rfl, Function.iterate_succ_apply]
  rw [show (6 : Nat) = 5 + 1 from rfl, Function.iterate_succ_apply]
  rw [show (5 : Nat) = 4 + 1 from rfl, Function.iterate_succ_apply]
  rw [show (4 : Nat) = 3 + 1 from rfl, Function.iterate_succ_apply]
  rw [show (3 : Nat) = 2 + 1 from rfl, Function.iterate_succ_apply]
  rw [show (2 : Nat) = 1 + 1 from rfl, Function.iterate_succ_apply]
  rw [show (1 : Nat) = 0 + 1 from rfl, Function.iterate_succ_apply, Function.iterate_zero_apply]
  exact crcStep_lt (crcStep_lt (crcStep_lt (crcStep_lt (crcStep_lt (crcStep_lt (crcStep_lt
    (crcStep_lt h)))))))

/-- The running checksum is always a 16-bit value, so `hex4` renders it the
way `fmt.Sprintf("%04X", uint16)` does: exactly four uppercase hex digits. -/
theorem p1crc16_lt (data : List Nat) : p1crc16 data < 2 ^ 16 := by
  rw [p1crc16]
  suffices h : ∀ (l : List Nat) (a : Nat), a < 2 ^ 16 →
      l.foldl (fun crc v => IBMTable ((crc % 256) ^^^ (v % 256)) ^^^ (crc >>> 8)) a < 2 ^ 16 from
    h data 0 (by norm_num)
  intro l
  induction l with
  | nil => intro a ha; simpa using ha
  | cons x xs ih =>
    intro a ha
    simp only [List.foldl_cons]
    apply ih
    have hidx : (a % 256) ^^^ (x % 256) < 2 ^ 16 := by
      have hx : (a % 256) ^^^ (x % 256) < 2 ^ 8 :=
        Nat.xor_lt_two_pow (Nat.mod_lt _ (by norm_num)) (Nat.mod_lt _ (by norm_num))
      calc (a % 256) ^^^ (x % 256) < 2 ^ 8 := hx
        _ ≤ 2 ^ 16 := by norm_num
    have hshift : a >>> 8 < 2 ^ 16 := by
      rw [Nat.shiftRight_eq_div_pow]
      omega
    exact Nat.xor_lt_two_pow (IBMTable_lt hidx) hshift

/-- Witness for C3 at a concrete wire: noise `"xy"`, frame `"/a!"` with its
correct trailer `4131`-style CRC, frame `"/b!"` with the wrong trailer
`0000`, frame `"/c!"` with its correct trailer. -/
theorem dsmr_C3_witness :
    startPolling (strBytes "xy" ++ strBytes "/a!" ++ strBytes "41D8\r\n" ++ strBytes "/b!" ++
        strBytes "0000\r\n" ++ strBytes "/c!" ++ strBytes "21D9\r\n")
      = [strBytes "/a!", strBytes "/c!"] :=
  dsmr_C3 (strBytes "xy") (strBytes "/a!") (strBytes "41D8\r\n") (strBytes "/b!")
    (strBytes "0000\r\n") (strBytes "/c!") (strBytes "21D9\r\n")
    (by decide) ⟨by decide, by decide, by decide⟩ ⟨by decide, by decide, by decide⟩
    ⟨by decide, by decide, by decide⟩ ⟨by decide, by decide, by decide⟩
    ⟨by decide, by decide, by decide⟩ ⟨by decide, by decide, by decide⟩
    (by decide) (by decide) (by decide)

/-- Witness for C9 at a concrete stream that ends mid-frame: noise, then a
`'/'` with no following `'!'`. -/
theorem dsmr_C9_witness : startPolling (strBytes "xx/partial") = [] :=
  dsmr_C9 (strBytes "xx/partial") (by decide)

/-! ## Lemmas about the body parser -/

theorem isPrefixOf_singleton {a x : Nat} {xs : List Nat} :
    ([a].isPrefixOf (x :: xs)) = (a == x) := by
  simp [List.isPrefixOf]

theorem findOcc_singleton_none {a : Nat} : ∀ {l : List Nat}, findOcc [a] l = none ↔ a ∉ l := by
  intro l
  induction l with
  | nil => simp [findOcc]
  | cons x xs ih =>
    rw [findOcc, isPrefixOf_singleton]
    by_cases hx : a = x
    · subst hx
      simp
    · rw [if_neg (by simp [hx])]
      cases hf : findOcc [a] xs with
      | none =>
        simp only [Option.map_none']
        simp [hx, ih.mp hf]
      | some i =>
        simp only [Option.map_some']
        constructor
        · intro h; simp at h
        · intro hmem
          simp only [List.mem_cons, not_or] at hmem
          rw [← ih] at hmem
          rw [hmem.2] at hf
          exact absurd hf (by simp)

theorem findOcc_singleton_append {a : Nat} :
    ∀ {pre : List Nat} (post : List Nat), a ∉ pre →
      findOcc [a] (pre ++ a :: post) = some pre.length := by
  intro pre
  induction pre with
  | nil =>
    intro post _
    rw [List.nil_append, findOcc, isPrefixOf_singleton]
    simp
  | cons x xs ih =>
    intro post hmem
    simp only [List.mem_cons, not_or] at hmem
    rw [List.cons_append, findOcc, isPrefixOf_singleton,
      if_neg (by simp [hmem.1]), ih post hmem.2]
    simp

theorem first_occ_unique {a : Nat} :
    ∀ {p1 p2 q1 q2 : List Nat}, p1 ++ a :: q1 = p2 ++ a :: q2 → a ∉ p1 → a ∉ p2 →
      p1 = p2 ∧ q1 = q2 := by
  intro p1
  induction p1 with
  | nil =>
    intro p2 q1 q2 heq h1 h2
    cases p2 with
    | nil => simpa using heq
    | cons y ys =>
      simp only [List.nil_append, List.cons_append, List.cons.injEq] at heq
      exact absurd (by rw [heq.1]; exact List.mem_cons_self y ys : a ∈ y :: ys) h2
  | cons x xs ih =>
    intro p2 q1 q2 heq h1 h2
    simp only [List.mem_cons, not_or] at h1
    cases p2 with
    | nil =>
      simp only [List.cons_append, List.nil_append, List.cons.injEq] at heq
      exact absurd heq.1.symm h1.1
    | cons y ys =>
      simp only [List.cons_append, List.cons.injEq] at heq
      simp only [List.mem_cons, not_or] at h2
      obtain ⟨hxy, hrest⟩ := heq
      obtain ⟨hp, hq⟩ := ih hrest h1.2 h2.2
      exact ⟨by rw [hxy, hp], hq⟩

theorem first_mem_split {a : Nat} :
    ∀ {l : List Nat}, a ∈ l → ∃ pre post, l = pre ++ a :: post ∧ a ∉ pre := by
  intro l
  induction l with
  | nil => intro h; simp at h
  | cons x xs ih =>
    intro h
    by_cases hx : x = a
    · subst hx
      exact ⟨[], xs, rfl, by simp⟩
    · have hmem : a ∈ xs := by
        rcases List.mem_cons.mp h with h1 | h2
        · exact absurd h1.symm hx
        · exact h2
      obtain ⟨pre, post, heq, hnp⟩ := ih hmem
      exact ⟨x :: pre, post, by rw [heq, List.cons_append],
        by simp only [List.mem_cons, not_or]; exact ⟨fun hax => hx hax.symm, hnp⟩⟩

theorem takeWhile_neq_append {pre post : List Nat} (hnp : 40 ∉ pre) :
    (pre ++ 40 :: post).takeWhile (fun c => c ≠ 40) = pre := by
  induction pre with
  | nil => simp [List.takeWhile_cons]
  | cons x xs ih =>
    simp only [List.mem_cons, not_or] at hnp
    rw [List.cons_append, List.takeWhile_cons]
    rw [if_pos (by simp only [decide_eq_true_eq]; exact fun h => hnp.1 h.symm), ih hnp.2]

theorem dropWhile_neq_append {pre post : List Nat} (hnp : 40 ∉ pre) :
    (pre ++ 40 :: post).dropWhile (fun c => c ≠ 40) = 40 :: post := by
  induction pre with
  | nil => simp [List.dropWhile_cons]
  | cons x xs ih =>
    simp only [List.mem_cons, not_or] at hnp
    rw [List.cons_append, List.dropWhile_cons]
    rw [if_pos (by simp only [decide_eq_true_eq]; exact fun h => hnp.1 h.symm)]
    exact ih hnp.2

theorem specLine_eq {pre post : List Nat} (hnp : 40 ∉ pre) :
    specLine (pre ++ 40 :: post) = (pre, goSplit [41, 40] post.dropLast) := by
  rw [specLine, takeWhile_neq_append hnp, dropWhile_neq_append hnp]
  simp


theorem parseDataLines_cons_ok {pre post : List Nat} {acc : List (List Nat × List (List Nat))}
    {rest : List (List Nat)} (hnp : 40 ∉ pre) (hpost : post ≠ []) :
    parseDataLines acc ((pre ++ 40 :: post) :: rest)
      = parseDataLines (upsert pre (goSplit [41, 40] post.dropLast) acc) rest := by
  rw [parseDataLines, findOcc_singleton_append post hnp]
  dsimp only
  have hlen : (pre ++ 40 :: post).length = pre.length + 1 + post.length := by
    simp only [List.length_append, List.length_cons]
    omega
  have hposlen : 0 < post.length := List.length_pos.mpr hpost
  rw [if_neg (by omega)]
  have hdecomp : post.dropLast ++ [post.getLast hpost] = post :=
    List.dropLast_append_getLast hpost
  have htake : (pre ++ 40 :: post).take pre.length = pre := by
    have := List.take_left pre (40 :: post)
    simpa using this
  have hdrop : ((pre ++ 40 :: post).take ((pre ++ 40 :: post).length - 1)).drop (pre.length + 1)
      = post.dropLast := by
    conv_lhs => rw [← hdecomp]
    have hre : pre ++ 40 :: (post.dropLast ++ [post.getLast hpost])
        = ((pre ++ [40]) ++ post.dropLast) ++ [post.getLast hpost] := by
      simp
    rw [hre]
    have hlen2 : (((pre ++ [40]) ++ post.dropLast) ++ [post.getLast hpost]).length - 1
        = ((pre ++ [40]) ++ post.dropLast).length := by
      simp
    rw [hlen2, List.take_left]
    have hlen3 : pre.length + 1 = (pre ++ [40]).length := by simp
    rw [hlen3, List.drop_left]
  rw [htake, hdrop]

theorem parseDataLines_cons_crash {pre : List Nat} {acc : List (List Nat × List (List Nat))}
    {rest : List (List Nat)} (hnp : 40 ∉ pre) :
    parseDataLines acc ((pre ++ [40]) :: rest) = .crash := by
  rw [parseDataLines, findOcc_singleton_append [] hnp]
  dsimp only
  rw [if_pos (by simp)]

theorem parseDataLines_cons_err {l : List Nat} {acc : List (List Nat × List (List Nat))}
    {rest : List (List Nat)} (h : 40 ∉ l) :
    parseDataLines acc (l :: rest) = .err := by
  rw [parseDataLines, findOcc_singleton_none.mpr h]

theorem parseDataLines_ok : ∀ {ds : List (List Nat)} {acc : List (List Nat × List (List Nat))},
    (∀ l ∈ ds, lineOkP l) →
    parseDataLines acc ds
      = .ok (ds.foldl (fun m l => upsert (specLine l).1 (specLine l).2 m) acc) := by
  intro ds
  induction ds with
  | nil => intro acc _; rfl
  | cons l rest ih =>
    intro acc hall
    obtain ⟨pre, post, hl, hnp, hpost⟩ := hall l (by simp)
    subst hl
    rw [parseDataLines_cons_ok hnp hpost, ih (fun x hx => hall x (by simp [hx]))]
    rw [List.foldl_cons, specLine_eq hnp]

theorem parseDataLines_err : ∀ {pre : List (List Nat)} {l : List Nat} {ds : List (List Nat)}
    {acc : List (List Nat × List (List Nat))},
    (∀ x ∈ pre, lineOkP x) → 40 ∉ l →
    parseDataLines acc (pre ++ l :: ds) = .err := by
  intro pre
  induction pre with
  | nil =>
    intro l ds acc _ hl
    rw [List.nil_append]
    exact parseDataLines_cons_err hl
  | cons x xs ih =>
    intro l ds acc hall hl
    obtain ⟨p2, q2, hx, hnp2, hq2⟩ := hall x (by simp)
    subst hx
    rw [List.cons_append, parseDataLines_cons_ok hnp2 hq2]
    exact ih (fun y hy => hall y (by simp [hy])) hl

theorem parseDataLines_crash : ∀ {pre : List (List Nat)} {l : List Nat} {ds : List (List Nat)}
    {acc : List (List Nat × List (List Nat))},
    (∀ x ∈ pre, lineOkP x) → lineCrashP l →
    parseDataLines acc (pre ++ l :: ds) = .crash := by
  intro pre
  induction pre with
  | nil =>
    intro l ds acc _ hl
    obtain ⟨p, hleq, hnp⟩ := hl
    subst hleq
    rw [List.nil_append]
    exact parseDataLines_cons_crash hnp
  | cons x xs ih =>
    intro l ds acc hall hl
    obtain ⟨p2, q2, hx, hnp2, hq2⟩ := hall x (by simp)
    subst hx
    rw [List.cons_append, parseDataLines_cons_ok hnp2 hq2]
    exact ih (fun y hy => hall y (by simp [hy])) hl

theorem lineOkP_mem_paren {l : List Nat} (h : lineOkP l) : 40 ∈ l := by
  obtain ⟨pre, post, hl, _, _⟩ := h
  rw [hl]
  exact List.mem_append_right pre (by simp)

theorem lineOkP_not_crash {l : List Nat} (hok : lineOkP l) (hcr : lineCrashP l) : False := by
  obtain ⟨pre, post, hl, hnp, hpost⟩ := hok
  obtain ⟨pre2, hl2, hnp2⟩ := hcr
  rw [hl] at hl2
  have h40 : pre2 ++ [40] = pre2 ++ 40 :: ([] : List Nat) := rfl
  rw [h40] at hl2
  obtain ⟨_, hq⟩ := first_occ_unique hl2 hnp hnp2
  exact hpost hq

theorem line_classify (l : List Nat) : lineOkP l ∨ 40 ∉ l ∨ lineCrashP l := by
  by_cases hm : 40 ∈ l
  · obtain ⟨pre, post, heq, hnp⟩ := first_mem_split hm
    cases post with
    | nil => exact Or.inr (Or.inr ⟨pre, heq, hnp⟩)
    | cons q qs => exact Or.inl ⟨pre, q :: qs, heq, hnp, by simp⟩
  · exact Or.inr (Or.inl hm)

theorem dataScan_trichotomy (ds : List (List Nat)) :
    (∀ l ∈ ds, lineOkP l) ∨
      ∃ pre l post, ds = pre ++ l :: post ∧ (∀ x ∈ pre, lineOkP x) ∧
        (40 ∉ l ∨ lineCrashP l) := by
  induction ds with
  | nil => exact Or.inl (by simp)
  | cons l rest ih =>
    rcases line_classify l with hok | hbad | hcrash
    · rcases ih with hall | ⟨pre, x, post, heq, hpre, hx⟩
      · refine Or.inl ?_
        intro y hy
        rcases List.mem_cons.mp hy with hy1 | hy2
        · exact hy1 ▸ hok
        · exact hall y hy2
      · refine Or.inr ⟨l :: pre, x, post, by rw [heq, List.cons_append], ?_, hx⟩
        intro z hz
        rcases List.mem_cons.mp hz with hz1 | hz2
        · exact hz1 ▸ hok
        · exact hpre z hz2
    · exact Or.inr ⟨[], l, rest, rfl, by simp, Or.inl hbad⟩
    · exact Or.inr ⟨[], l, rest, rfl, by simp, Or.inr hcrash⟩

theorem first_bad_unique {P : List Nat → Prop} :
    ∀ {pre pre2 : List (List Nat)} {l l2 : List Nat} {post post2 : List (List Nat)},
      pre ++ l :: post = pre2 ++ l2 :: post2 →
      (∀ x ∈ pre, P x) → (∀ x ∈ pre2, P x) → ¬ P l → ¬ P l2 →
      pre = pre2 ∧ l = l2 := by
  intro pre
  induction pre with
  | nil =>
    intro pre2 l l2 post post2 heq _ hall2 hnl _
    cases pre2 with
    | nil =>
      simp only [List.nil_append, List.cons.injEq] at heq
      exact ⟨rfl, heq.1⟩
    | cons y ys =>
      simp only [List.nil_append, List.cons_append, List.cons.injEq] at heq
      exact absurd (heq.1 ▸ hall2 y (by simp)) hnl
  | cons x xs ih =>
    intro pre2 l l2 post post2 heq hall1 hall2 hnl hnl2
    cases pre2 with
    | nil =>
      simp only [List.cons_append, List.nil_append, List.cons.injEq] at heq
      exact absurd (heq.1 ▸ hall1 x (by simp)) hnl2
    | cons y ys =>
      simp only [List.cons_append, List.cons.injEq] at heq
      obtain ⟨hp, hl⟩ := ih heq.2 (fun z hz => hall1 z (by simp [hz]))
        (fun z hz => hall2 z (by simp [hz])) hnl hnl2
      exact ⟨by rw [heq.1, hp], hl⟩

theorem lineCrashP_mem {l : List Nat} (h : lineCrashP l) : 40 ∈ l := by
  obtain ⟨p, hl, _⟩ := h
  rw [hl]
  exact List.mem_append_right p (by simp)


/-- C6 (amended): `Parse` returns a Go error exactly under the claim's
StructureError conditions restricted to the non-panicking shapes (`specErr`),
panics exactly in the carved-out shapes (`specCrash`), and otherwise returns
the record mapping the claim describes (`specMapping` over the data lines). -/
theorem dsmr_C6_amended (t : Telegram) :
    (Telegram.Parse t = .err ↔ specErr (goSplit [13, 10] t)) ∧
    (Telegram.Parse t = .crash ↔ specCrash (goSplit [13, 10] t)) ∧
    (∀ l0r ls, goSplit [13, 10] t = (47 :: l0r) :: [] :: ls → ls ≠ [] →
      (∀ l ∈ ls.dropLast, lineOkP l) →
      Telegram.Parse t = .ok (specMapping ls.dropLast)) := by
  rw [Telegram.Parse]
  cases hl : goSplit [13, 10] t with
  | nil =>
    refine ⟨⟨fun _ => Or.inl (by simp), fun _ => rfl⟩, ?_, ?_⟩
    · constructor
      · intro h; exact absurd h (by simp)
      · intro h
        simp only [specCrash] at h
        obtain ⟨l0, l1, ls, heq, _⟩ := h
        simp at heq
    · intro l0r ls heq; simp at heq
  | cons l0 rest0 =>
    cases rest0 with
    | nil =>
      refine ⟨⟨fun _ => Or.inl (by simp), fun _ => rfl⟩, ?_, ?_⟩
      · constructor
        · intro h; exact absurd h (by simp)
        · intro h
          simp only [specCrash] at h
          obtain ⟨l02, l12, ls2, heq, _⟩ := h
          simp at heq
      · intro l0r ls heq; simp at heq
    | cons l1 ls =>
      cases l0 with
      | nil =>
        dsimp only
        refine ⟨?_, ?_, ?_⟩
        · constructor
          · intro h; exact absurd h (by simp)
          · intro h
            simp only [specErr] at h
            rcases h with hlen | ⟨c2, l0r2, l12, ls2, heq, _⟩
            · simp only [List.length_cons] at hlen; omega
            · injection heq with h1 _
              simp at h1
        · exact ⟨fun _ => ⟨[], l1, ls, rfl, Or.inl rfl⟩, fun _ => rfl⟩
        · intro l0r ls2 heq
          injection heq with h1 _
          simp at h1
      | cons c l0tail =>
        dsimp only
        by_cases hc : c = 47
        · subst hc
          rw [if_neg (by simp)]
          by_cases hl1 : l1 = []
          · subst hl1
            rw [if_neg (by simp)]
            cases ls with
            | nil =>
              refine ⟨?_, ?_, ?_⟩
              · constructor
                · intro h; exact absurd h (by simp)
                · intro h
                  simp only [specErr] at h
                  rcases h with hlen | ⟨c2, l0r2, l12, ls2, heq, hdisj⟩
                  · simp only [List.length_cons] at hlen; omega
                  · injection heq with h1 h2
                    injection h2 with h2a h2b
                    injection h1 with h1a h1b
                    rcases hdisj with hne47 | ⟨_, hl1ne⟩ | ⟨_, _, pre, x, post, hscan, _⟩
                    · exact absurd h1a.symm hne47
                    · exact absurd h2a.symm hl1ne
                    · rw [← h2b] at hscan; simp at hscan
              · exact ⟨fun _ => ⟨47 :: l0tail, [], [], rfl,
                  Or.inr (Or.inl ⟨l0tail, rfl, rfl, rfl⟩)⟩, fun _ => rfl⟩
              · intro l0r ls2 heq hne _
                injection heq with h1 h2
                injection h2 with h2a h2b
                exact absurd h2b.symm hne
            | cons l2 ls2 =>
              dsimp only
              rcases dataScan_trichotomy ((l2 :: ls2).dropLast) with hall |
                ⟨pre, x, post, heq, hpre, hx⟩
              · rw [parseDataLines_ok hall]
                refine ⟨?_, ?_, ?_⟩
                · constructor
                  · intro h; exact absurd h (by simp)
                  · intro h
                    simp only [specErr] at h
                    rcases h with hlen | ⟨c2, l0r2, l12, ls3, heq2, hdisj⟩
                    · simp only [List.length_cons] at hlen; omega
                    · injection heq2 with h1 h2
                      injection h2 with h2a h2b
                      injection h1 with h1a h1b
                      rcases hdisj with hne47 | ⟨_, hl1ne⟩ |
                        ⟨_, _, pre2, x2, post2, hscan, hx2, hpre2⟩
                      · exact absurd h1a.symm hne47
                      · exact absurd h2a.symm hl1ne
                      · rw [← h2b] at hscan
                        have hxok : lineOkP x2 := hall x2 (by
                          rw [hscan]; exact List.mem_append_right pre2 (by simp))
                        exact absurd (lineOkP_mem_paren hxok) hx2
                · constructor
                  · intro h; exact absurd h (by simp)
                  · intro h
                    simp only [specCrash] at h
                    obtain ⟨l02, l12, ls3, heq2, hdisj⟩ := h
                    injection heq2 with h1 h2
                    injection h2 with h2a h2b
                    rcases hdisj with hnil | ⟨l0r2, hl02eq, _, hls3nil⟩ |
                      ⟨l0r2, hl02eq, _, pre2, x2, post2, hscan, hx2, hpre2⟩
                    · rw [← h1] at hnil; simp at hnil
                    · rw [← h2b] at hls3nil; simp at hls3nil
                    · rw [← h2b] at hscan
                      have hxok : lineOkP x2 := hall x2 (by
                        rw [hscan]; exact List.mem_append_right pre2 (by simp))
                      exact (lineOkP_not_crash hxok hx2).elim
                · intro l0r ls3 heq2 hne hall2
                  injection heq2 with h1 h2
                  injection h2 with h2a h2b
                  rw [← h2b]
                  rfl
              · rcases hx with hbad | hcrash
                · rw [heq, parseDataLines_err hpre hbad]
                  refine ⟨?_, ?_, ?_⟩
                  · constructor
                    · intro _
                      exact Or.inr ⟨47, l0tail, [], l2 :: ls2, rfl,
                        Or.inr (Or.inr ⟨rfl, rfl, pre, x, post, heq, hbad, hpre⟩)⟩
                    · intro _; rfl
                  · constructor
                    · intro h; exact absurd h (by simp)
                    · intro h
                      simp only [specCrash] at h
                      obtain ⟨l02, l12, ls3, heq2, hdisj⟩ := h
                      injection heq2 with h1 h2
                      injection h2 with h2a h2b
                      rcases hdisj with hnil | ⟨l0r2, hl02eq, _, hls3nil⟩ |
                        ⟨l0r2, hl02eq, _, pre2, x2, post2, hscan, hx2, hpre2⟩
                      · rw [← h1] at hnil; simp at hnil
                      · rw [← h2b] at hls3nil; simp at hls3nil
                      · rw [← h2b, heq] at hscan
                        have hnx : ¬ lineOkP x := fun hok => hbad (lineOkP_mem_paren hok)
                        have hnx2 : ¬ lineOkP x2 := fun hok => lineOkP_not_crash hok hx2
                        obtain ⟨_, hxeq⟩ := first_bad_unique hscan hpre hpre2 hnx hnx2
                        rw [← hxeq] at hx2
                        exact absurd (lineCrashP_mem hx2) hbad
                  · intro l0r ls3 heq2 hne hall2
                    injection heq2 with h1 h2
                    injection h2 with h2a h2b
                    have hxok : lineOkP x := hall2 x (by
                      rw [← h2b, heq]; exact List.mem_append_right pre (by simp))
                    exact absurd (lineOkP_mem_paren hxok) hbad
                · rw [heq, parseDataLines_crash hpre hcrash]
                  refine ⟨?_, ?_, ?_⟩
                  · constructor
                    · intro h; exact absurd h (by simp)
                    · intro h
                      simp only [specErr] at h
                      rcases h with hlen | ⟨c2, l0r2, l12, ls3, heq2, hdisj⟩
                      · simp only [List.length_cons] at hlen; omega
                      · injection heq2 with h1 h2
                        injection h2 with h2a h2b
                        injection h1 with h1a h1b
                        rcases hdisj with hne47 | ⟨_, hl1ne⟩ |
                          ⟨_, _, pre2, x2, post2, hscan, hx2, hpre2⟩
                        · exact absurd h1a.symm hne47
                        · exact absurd h2a.symm hl1ne
                        · rw [← h2b, heq] at hscan
                          have hnx : ¬ lineOkP x := fun hok => lineOkP_not_crash hok hcrash
                          have hnx2 : ¬ lineOkP x2 := fun hok => hx2 (lineOkP_mem_paren hok)
                          obtain ⟨_, hxeq⟩ := first_bad_unique hscan hpre hpre2 hnx hnx2
                          rw [← hxeq] at hx2
                          exact absurd (lineCrashP_mem hcrash) hx2
                  · constructor
                    · intro _
                      exact ⟨47 :: l0tail, [], l2 :: ls2, rfl,
                        Or.inr (Or.inr ⟨l0tail, rfl, rfl, pre, x, post, heq, hcrash, hpre⟩)⟩
                    · intro _; rfl
                  · intro l0r ls3 heq2 hne hall2
                    injection heq2 with h1 h2
                    injection h2 with h2a h2b
                    have hxok : lineOkP x := hall2 x (by
                      rw [← h2b, heq]; exact List.mem_append_right pre (by simp))
                    exact (lineOkP_not_crash hxok hcrash).elim
          · rw [if_pos hl1]
            refine ⟨?_, ?_, ?_⟩
            · constructor
              · intro _
                exact Or.inr ⟨47, l0tail, l1, ls, rfl, Or.inr (Or.inl ⟨rfl, hl1⟩)⟩
              · intro _; rfl
            · constructor
              · intro h; exact absurd h (by simp)
              · intro h
                simp only [specCrash] at h
                obtain ⟨l02, l12, ls3, heq2, hdisj⟩ := h
                injection heq2 with h1 h2
                injection h2 with h2a h2b
                rcases hdisj with hnil | ⟨l0r2, _, hl12nil, _⟩ | ⟨l0r2, _, hl12nil, _⟩
                · rw [← h1] at hnil; simp at hnil
                · exact absurd (by rw [h2a]; exact hl12nil : l1 = []) hl1
                · exact absurd (by rw [h2a]; exact hl12nil : l1 = []) hl1
            · intro l0r ls3 heq2 _ _
              injection heq2 with h1 h2
              injection h2 with h2a h2b
              exact absurd h2a hl1
        · rw [if_pos hc]
          refine ⟨?_, ?_, ?_⟩
          · constructor
            · intro _
              exact Or.inr ⟨c, l0tail, l1, ls, rfl, Or.inl hc⟩
            · intro _; rfl
          · constructor
            · intro h; exact absurd h (by simp)
            · intro h
              simp only [specCrash] at h
              obtain ⟨l02, l12, ls3, heq2, hdisj⟩ := h
              injection heq2 with h1 h2
              rcases hdisj with hnil | ⟨l0r2, hl02eq, _, _⟩ | ⟨l0r2, hl02eq, _, _⟩
              · rw [← h1] at hnil; simp at hnil
              · rw [← h1] at hl02eq
                simp only [List.cons.injEq] at hl02eq
                exact absurd hl02eq.1 hc
              · rw [← h1] at hl02eq
                simp only [List.cons.injEq] at hl02eq
                exact absurd hl02eq.1 hc
          · intro l0r ls3 heq2 _ _
            injection heq2 with h1 h2
            simp only [List.cons.injEq] at h1
            exact absurd h1.1 hc

/-- C6 (counterexample): on the telegram `"/A\r\n"` — two lines, first line
starting with `'/'`, second line empty, no data lines — none of the claim's
StructureError conditions holds, so the claim says `Parse` returns a
mapping; the code instead panics on the slice `lines[2:1]`. -/
theorem dsmr_C6_counterexample :
    Telegram.Parse twoLineTelegram = ParseOutcome.crash ∧
      ¬ specErr (goSplit [13, 10] twoLineTelegram) := by
  constructor
  · decide
  · intro h
    have hl : goSplit [13, 10] twoLineTelegram = [[47, 65], []] := by decide
    rw [hl] at h
    simp only [specErr] at h
    rcases h with hlen | ⟨c2, l0r2, l12, ls2, heq, hdisj⟩
    · simp at hlen
    · injection heq with h1 h2
      injection h2 with h2a h2b
      simp only [List.cons.injEq] at h1
      rcases hdisj with hne47 | ⟨_, hl1ne⟩ | ⟨_, _, pre, x, post, hscan, _⟩
      · exact hne47 h1.1.symm
      · exact hl1ne h2a.symm
      · rw [← h2b] at hscan
        simp at hscan

/-- Witness for the amended C6 at the telegram `"/A\r\n\r\n1(2)\r\n!"`,
whose single data line is well formed. -/
theorem dsmr_C6_witness : Telegram.Parse oneDataTelegram = .ok [([49], [[50]])] := by
  have hd : (goSplit [13, 10] oneDataTelegram)
      = [[47, 65], [], [49, 40, 50, 41], [33]] := by decide
  have h := (dsmr_C6_amended oneDataTelegram).2.2 [65] [[49, 40, 50, 41], [33]]
    (by decide) (by decide) ?_
  · exact h.trans (by decide)
  · intro l hlmem
    have hdl : (([[49, 40, 50, 41], [33]] : List (List Nat)).dropLast)
        = [[49, 40, 50, 41]] := by decide
    rw [hdl] at hlmem
    have hleq : l = [49, 40, 50, 41] := by simpa using hlmem
    subst hleq
    exact ⟨[49], [50, 41], rfl, by decide, by decide⟩

theorem upsert_ne_nil (k : List Nat) (v : List (List Nat))
    (m : List (List Nat × List (List Nat))) : upsert k v m ≠ [] := by
  cases m with
  | nil => simp [upsert]
  | cons p rest =>
    obtain ⟨k2, v2⟩ := p
    rw [upsert]
    by_cases h : k2 = k
    · rw [if_pos h]; simp
    · rw [if_neg h]; simp

theorem parseDataLines_ok_ne_nil :
    ∀ {ds : List (List Nat)} {acc : List (List Nat × List (List Nat))}
      {m : List (List Nat × List (List Nat))},
      parseDataLines acc ds = .ok m → (acc ≠ [] ∨ ds ≠ []) → m ≠ [] := by
  intro ds
  induction ds with
  | nil =>
    intro acc m h hor
    rw [parseDataLines] at h
    injection h with hacc
    rcases hor with hacc2 | hds
    · rw [← hacc]; exact hacc2
    · exact absurd rfl hds
  | cons l rest ih =>
    intro acc m h hor
    rw [parseDataLines] at h
    cases hfo : findOcc [40] l with
    | none => rw [hfo] at h; simp at h
    | some j =>
      rw [hfo] at h
      dsimp only at h
      by_cases hcr : l.length - 1 < j + 1
      · rw [if_pos hcr] at h; simp at h
      · rw [if_neg hcr] at h
        exact ih h (Or.inl (upsert_ne_nil _ _ _))

/-- C4 (amended): for every telegram whose CRLF split has at least four
lines — so at least one data line exists — `Parse` never succeeds with an
empty mapping: it errs, panics, or returns a mapping with at least one
entry.  (With exactly three lines the code does return an empty mapping;
see the counterexample.) -/
theorem dsmr_C4_amended (t : Telegram) (h : 4 ≤ (goSplit [13, 10] t).length) :
    Telegram.Parse t ≠ .ok [] := by
  rw [Telegram.Parse]
  cases hl : goSplit [13, 10] t with
  | nil => rw [hl] at h; simp at h
  | cons l0 rest0 =>
    cases rest0 with
    | nil => rw [hl] at h; simp at h
    | cons l1 ls =>
      rw [hl] at h
      simp only [List.length_cons] at h
      cases l0 with
      | nil => dsimp only; simp
      | cons c l0tail =>
        dsimp only
        by_cases hc : c ≠ 47
        · rw [if_pos hc]; simp
        · rw [if_neg hc]
          by_cases hl1 : l1 ≠ []
          · rw [if_pos hl1]; simp
          · rw [if_neg hl1]
            cases ls with
            | nil => simp only [List.length_nil] at h; omega
            | cons l2 ls2 =>
              dsimp only
              intro hok
              have hds : (l2 :: ls2).dropLast ≠ [] := by
                have hlen2 : (l2 :: ls2).dropLast.length = ls2.length := by simp
                have hge : 1 ≤ ls2.length := by
                  simp only [List.length_cons] at h
                  omega
                intro hnil
                rw [hnil] at hlen2
                simp at hlen2
                omega
              exact parseDataLines_ok_ne_nil hok (Or.inr hds) rfl

set_option maxRecDepth 10000 in
/-- C4 (counterexample): the telegram `"/A\r\n\r\n!"` — header line, blank
separator, `'!'` line, no data lines — is delivered by the reader with its
correct trailer on the wire (so it is checksum-valid), yet `Parse` succeeds
with an empty mapping instead of failing. -/
theorem dsmr_C4_counterexample :
    startPolling (noDataTelegram ++ noDataTrailer) = [noDataTelegram] ∧
      Telegram.Parse noDataTelegram = .ok [] := by
  constructor
  · decide
  · decide

/-- Witness for the amended C4 at a telegram with one data line. -/
theorem dsmr_C4_witness : Telegram.Parse oneDataTelegram ≠ .ok [] :=
  dsmr_C4_amended oneDataTelegram (by decide)

set_option maxRecDepth 10000 in
/-- C5 (counterexample): on the spec's own test vector
`"/HDR\r\n\r\n1-0:1.7.0(0001.234*kW)\r\n!"` — delivered by the reader with
its correctly computed trailer `"4131"`, as the conjunct about
`startPolling` shows — `Identifier()` does not return `"HDR"`: the first
`"\r\n\r\n"` is at index 4, so the Go slice `t[5:4]` panics (modelled as
`none`). -/
theorem dsmr_C5_counterexample :
    Telegram.Identifier hdrTelegram = none ∧
      startPolling (hdrTelegram ++ hdrTrailer) = [hdrTelegram] := by
  constructor
  · decide
  · decide

set_option maxRecDepth 10000 in
/-- C5 (amended): on the claim's telegram, `Parse()` does return the mapping
`{"1-0:1.7.0": ["0001.234*kW"]}`, but `Identifier()` panics because the
header text `HDR` starts at offset 1, not the fixed offset 5; on the
otherwise-identical telegram with the standard five-byte `"/XXXZ"` header
prefix (`"/XXXZHDR..."`), `Identifier()` returns `"HDR"` and `Parse()`
returns the same mapping. -/
theorem dsmr_C5_amended :
    startPolling (hdrTelegram ++ hdrTrailer) = [hdrTelegram] ∧
      Telegram.Parse hdrTelegram
        = .ok [(strBytes "1-0:1.7.0", [strBytes "0001.234*kW"])] ∧
      Telegram.Identifier hdrTelegram = none ∧
      Telegram.Parse hdrTelegramFixed
        = .ok [(strBytes "1-0:1.7.0", [strBytes "0001.234*kW"])] ∧
      Telegram.Identifier hdrTelegramFixed = some (strBytes "HDR") := by
  refine ⟨by decide, by decide, by decide, by decide, by decide⟩

/-- C10: on a checksum-valid telegram whose data line is `"1-0:1.7.0("` —
the first `'('` is the line's final character — `Parse` neither returns a
record mapping nor a Go error: the slice `l[idCodeEnd+1 : len(l)-1]` has its
start index past its end index, a runtime panic (`crash` in the model). -/
theorem dsmr_C10 : Telegram.Parse openParenTelegram = ParseOutcome.crash := by decide

/-- C7: `ParseValueWithUnit` fails with the `ErrorParseValueWithUnit`
sentinel exactly when splitting on `'*'` does not yield two parts; with two
parts whose first parses as a number, it returns the number and the unit,
multiplying by 1000 and stripping a leading `'k'`; and the claim's three
examples hold (`"1234.567*kWh"` gives `(1234567, "Wh")`, `"230.0*V"` gives
`(230, "V")`, `"bad"` fails).  Values are exact rationals in the model. -/
theorem dsmr_C7 :
    (∀ s : List Nat, (goSplit [42] s).length ≠ 2 → ParseValueWithUnit s = .errFormat) ∧
    (∀ s p0 p1 : List Nat, ∀ v : ℚ, goSplit [42] s = [p0, p1] →
      parseFloatModel p0 = some v →
      ParseValueWithUnit s =
        if p1.take 1 = [107] then .ok (v * 1000) (p1.drop 1) else .ok v p1) ∧
    ParseValueWithUnit (strBytes "1234.567*kWh") = .ok 1234567 (strBytes "Wh") ∧
    ParseValueWithUnit (strBytes "230.0*V") = .ok 230 (strBytes "V") ∧
    ParseValueWithUnit (strBytes "bad") = .errFormat := by
  refine ⟨?_, ?_, ?_, ?_, by decide⟩
  · intro s hlen
    rw [ParseValueWithUnit]
    cases hsp : goSplit [42] s with
    | nil => rfl
    | cons p0 r0 =>
      cases r0 with
      | nil => rfl
      | cons p1 r1 =>
        cases r1 with
        | nil => rw [hsp] at hlen; simp at hlen
        | cons p2 r2 => rfl
  · intro s p0 p1 v hsp hf
    rw [ParseValueWithUnit, hsp]
    dsimp only
    rw [hf]
  · have h : ParseValueWithUnit (strBytes "1234.567*kWh") =
        .ok ((((1234 : ℕ) : ℚ) + ((567 : ℕ) : ℚ) / (10 : ℚ) ^ (3 : ℕ)) * 1000)
          (strBytes "Wh") := rfl
    rw [h]
    norm_num
  · have h : ParseValueWithUnit (strBytes "230.0*V") =
        .ok (((230 : ℕ) : ℚ) + ((0 : ℕ) : ℚ) / (10 : ℚ) ^ (1 : ℕ)) (strBytes "V") := rfl
    rw [h]
    norm_num

/-- Witness for C7: the arity-error branch applied at the concrete input
`"100"` (no `'*'`, so one part). -/
theorem dsmr_C7_witness : ParseValueWithUnit (strBytes "100") = .errFormat :=
  dsmr_C7.1 (strBytes "100") (by decide)

/-- C8: `ParseTimestamp` fails with the missing-DST-indicator error exactly
when the final byte is neither `'S'` nor `'W'`; a final `'S'` selects the
fixed `summerTimezone` designation (`"CEST"`), a final `'W'` the fixed
`winterTimezone` designation (`"CET"`), independent of any host state (the
model has no host parameter); the remaining bytes go through the
`YYMMDDhhmmss` layout parse, whose failures are returned as errors. -/
theorem dsmr_C8 (s : List Nat) :
    (∀ c, s.getLast? = some c → c ≠ 83 → c ≠ 87 → ParseTimestamp s = .errIndicator) ∧
    (s.getLast? = some 83 →
      ParseTimestamp s = match parseLayout12 s.dropLast with
        | some f => .ok f summerTimezone
        | none => .errParse) ∧
    (s.getLast? = some 87 →
      ParseTimestamp s = match parseLayout12 s.dropLast with
        | some f => .ok f winterTimezone
        | none => .errParse) := by
  refine ⟨?_, ?_, ?_⟩
  · intro c hc h83 h87
    rw [ParseTimestamp, hc]
    dsimp only
    rw [if_neg h83, if_neg h87]
  · intro hc
    rw [ParseTimestamp, hc]
    dsimp only
    rw [if_pos rfl]
  · intro hc
    rw [ParseTimestamp, hc]
    dsimp only
    rw [if_neg (by decide), if_pos rfl]

/-- Witness for C8: the spec's two examples — `"210315120000X"` fails with
the DST-indicator error, `"210315120000S"` decodes to 2021-03-15 12:00:00
with the summer designation. -/
theorem dsmr_C8_witness :
    ParseTimestamp (strBytes "210315120000X") = .errIndicator ∧
    ParseTimestamp (strBytes "210315120000S") = .ok ⟨2021, 3, 15, 12, 0, 0⟩ "CEST" := by
  constructor
  · exact (dsmr_C8 (strBytes "210315120000X")).1 88 (by decide) (by decide) (by decide)
  · have h := (dsmr_C8 (strBytes "210315120000S")).2.1 (by decide)
    exact h.trans (by decide)
